import Mathlib

/-!
Verification development for the `ytknow` caption-cleaning core
(`src/ytknow/cleaning.py`): the caption normalizer `clean_vtt_content` and
the boundary-aware overlapping chunker `chunk_text`, modelled at the level
of character lists (`List Char`), with Python slice/index semantics made
explicit (negative indices, clamping, `IndexError`) and the `while` loop of
the chunker given explicit fuel.
-/

set_option maxHeartbeats 1000000

namespace YtKnow

/-- Text is modelled as its list of characters. -/
abbrev Line := List Char

/-- ASCII model of Python's whitespace class (space, tab, newline, carriage
return, vertical tab, form feed), the notion used by `str.strip()` and
`re.sub(r'\s+', ' ', ...)` in `clean_vtt_content`; exotic Unicode
whitespace is outside the model's scope. -/
def pyIsSpace (c : Char) : Bool :=
  c = ' ' || c = '\t' || c = '\n' || c = '\r' || c = '\x0b' || c = '\x0c'

/-- The sentence-terminal characters `['.', '!', '?', '\n']` tested by the
lookback loop of `chunk_text`. -/
def isTerminal (c : Char) : Bool :=
  c = '.' || c = '!' || c = '?' || c = '\n'

/-- `line.isdigit()` (ASCII model): nonempty and all ASCII digits. -/
def pyIsDigit (l : Line) : Bool :=
  !l.isEmpty && l.all (fun c => '0' ≤ c && c ≤ '9')

/-- Remove trailing whitespace (the right half of Python `str.strip()`). -/
def stripEnd (l : Line) : Line :=
  (l.reverse.dropWhile pyIsSpace).reverse

/-- Python `str.strip()` (ASCII whitespace model): drop leading and
trailing whitespace. -/
def pyStrip (l : Line) : Line :=
  stripEnd (l.dropWhile pyIsSpace)

/-- Python substring containment `p in l`. -/
def containsSub : Line → Line → Bool
  | p, [] => p.isEmpty
  | p, c :: r => p.isPrefixOf (c :: r) || containsSub p r

/-- One-pass state machine implementing `re.sub(r'<[^>]+>', '', s)` (step 1
of `clean_vtt_content`). Outside a candidate tag (state `none`) characters
are copied; after a `<` the subsequent characters are buffered in reverse
(state `some buf`) until a `>` either closes a nonempty-bodied tag, which
is dropped, or an empty `<>`, which is kept verbatim since `[^>]+` needs at
least one body character; a `<` that is never closed is emitted verbatim at
the end of input, as the regex finds no match there. -/
def tagGo : Option Line → Line → Line
  | none, [] => []
  | some buf, [] => '<' :: buf.reverse
  | none, c :: r => if c = '<' then tagGo (some []) r else c :: tagGo none r
  | some buf, c :: r =>
      if c = '>' then
        (if buf.isEmpty then '<' :: '>' :: tagGo none r else tagGo none r)
      else tagGo (some (c :: buf)) r

/-- Step 1 of `clean_vtt_content`: `re.sub(r'<[^>]+>', '', vtt_text)`. -/
def tagRemove (s : Line) : Line := tagGo none s

/-- Python `str.splitlines()` restricted to the ASCII line breaks `\n`,
`\r\n` and `\r` (the exotic separators `\v \f \x1c-\x1e \x85    `
are outside the model's scope): no trailing empty line is produced and the
empty string yields no lines. -/
def splitLines : Line → List Line
  | [] => []
  | '\r' :: '\n' :: r => [] :: splitLines r
  | '\n' :: r => [] :: splitLines r
  | '\r' :: r => [] :: splitLines r
  | c :: r =>
      match splitLines r with
      | [] => [[c]]
      | w :: ws => (c :: w) :: ws

/-- Models Python `html.unescape` restricted to the basic entities caption
text exercises (`&amp;`, `&lt;`, `&gt;`, `&quot;`, `&#39;`, the named ones
also without the trailing semicolon, as in HTML5): longest match first,
single pass; anything else, including a bare `&`, passes through. -/
def unescape : Line → Line
  | [] => []
  | '&' :: 'a' :: 'm' :: 'p' :: ';' :: r => '&' :: unescape r
  | '&' :: 'a' :: 'm' :: 'p' :: r => '&' :: unescape r
  | '&' :: 'l' :: 't' :: ';' :: r => '<' :: unescape r
  | '&' :: 'l' :: 't' :: r => '<' :: unescape r
  | '&' :: 'g' :: 't' :: ';' :: r => '>' :: unescape r
  | '&' :: 'g' :: 't' :: r => '>' :: unescape r
  | '&' :: 'q' :: 'u' :: 'o' :: 't' :: ';' :: r => '"' :: unescape r
  | '&' :: 'q' :: 'u' :: 'o' :: 't' :: r => '"' :: unescape r
  | '&' :: '#' :: '3' :: '9' :: ';' :: r => '\'' :: unescape r
  | c :: r => c :: unescape r

/-- The `WEBVTT` header marker. -/
def webvttMark : Line := "WEBVTT".toList

/-- The `Kind:` metadata marker. -/
def kindMark : Line := "Kind:".toList

/-- The `Language:` metadata marker. -/
def languageMark : Line := "Language:".toList

/-- The cue-timing arrow marker. -/
def arrowMark : Line := "-->".toList

/-- The per-line filter of `clean_vtt_content` step 2: strip; drop the line
if empty, if it contains any of the `WEBVTT`/`Kind:`/`Language:`/`-->`
markers, or if it is digit-only; HTML-decode the survivors, re-strip, drop
lines that became empty. -/
def keepLine (l : Line) : Option Line :=
  let l1 := pyStrip l
  if l1.isEmpty then none
  else if containsSub webvttMark l1 || containsSub kindMark l1
      || containsSub languageMark l1 || containsSub arrowMark l1 then none
  else if pyIsDigit l1 then none
  else
    let l2 := pyStrip (unescape l1)
    if l2.isEmpty then none else some l2

/-- One step of the rolling-window deduplication fold of
`clean_vtt_content` step 3, acting on the accumulator
`final_text_chunks`. -/
def dedupStep (acc : List Line) (line : Line) : List Line :=
  match acc.getLast? with
  | none => [line]
  | some last =>
      if last.isPrefixOf line then acc.dropLast ++ [line]
      else if line.isPrefixOf last then acc
      else acc ++ [line]

/-- The rolling-window deduplication of `clean_vtt_content` step 3 as a
fold over the filtered lines. -/
def dedupFold (lines : List Line) : List Line :=
  lines.foldl dedupStep []

/-- `sep.join(parts)` for a one-character separator. -/
def joinSep (sep : Char) : List Line → Line
  | [] => []
  | [x] => x
  | x :: xs => x ++ sep :: joinSep sep xs

/-- Worker for `collapse`; the flag records whether the previous character
was whitespace (so the current run's single space was already emitted). -/
def collapseGo : Bool → Line → Line
  | _, [] => []
  | afterWs, c :: r =>
      if pyIsSpace c then
        (if afterWs then collapseGo true r else ' ' :: collapseGo true r)
      else c :: collapseGo false r

/-- Models `re.sub(r'\s+', ' ', s)`: each maximal whitespace run becomes a
single space. -/
def collapse (l : Line) : Line := collapseGo false l

/-- Split on single spaces (`splitWords " a" = ["", "a"]` etc.); the
word-chunking step of the reflow model. -/
def splitWords : Line → List Line
  | [] => [[]]
  | c :: r =>
      if c = ' ' then [] :: splitWords r
      else
        match splitWords r with
        | [] => [[c]]
        | w :: ws => (c :: w) :: ws

/-- Greedy packer modelling `textwrap.fill(s, width=100)` on the input
`clean_vtt_content` hands it (nonempty, stripped, single-space separated):
words are packed greedily into lines of at most 100 characters rejoined
with single spaces; a word longer than 100 characters is broken at the
100-character boundary starting on a fresh line. (The stdlib additionally
fills the remainder of the current line when breaking a long word and can
break at hyphens; no theorem below depends on the exact break positions.)
The fuel is an upper bound on the number of steps; `fill` passes enough
that it is never exhausted. -/
def wrapGo : Nat → Line → List Line → List Line
  | 0, cur, ws => cur :: ws
  | _ + 1, cur, [] => [cur]
  | n + 1, cur, w :: rest =>
      if cur.isEmpty then
        (if w.length ≤ 100 then wrapGo n w rest
         else w.take 100 :: wrapGo n [] (w.drop 100 :: rest))
      else if cur.length + 1 + w.length ≤ 100 then wrapGo n (cur ++ ' ' :: w) rest
      else cur :: wrapGo n [] (w :: rest)

/-- `textwrap.fill(u, width=100)` model: chunk into words, wrap greedily,
join the lines with newlines. -/
def fill (u : Line) : Line :=
  let ws := splitWords u
  joinSep '\n' (wrapGo (u.length + 2 * ws.length + 2) [] ws)

/-- Model of `clean_vtt_content`: global tag removal, line filtering,
rolling-window deduplication, space-joining, whitespace collapsing and
stripping, then reflow at width 100 (empty text returns empty). -/
def cleanVttContent (s : Line) : Line :=
  let lines := splitLines (tagRemove s)
  let cleanLines := lines.filterMap keepLine
  let fullText := pyStrip (collapse (joinSep ' ' (dedupFold cleanLines)))
  if fullText.isEmpty then [] else fill fullText

/-- Resolve one Python slice bound: a negative index counts from the end
and clamps at 0, a nonnegative one clamps at the length. -/
def pyBound (len : Nat) (i : Int) : Nat :=
  if i < 0 then ((len : Int) + i).toNat else min i.toNat len

/-- Python slice `t[i:j]`. -/
def pySlice (t : Line) (i j : Int) : Line :=
  (t.take (pyBound t.length j)).drop (pyBound t.length i)

/-- Python indexing `t[i]`: negative indices wrap once; out of range is an
`IndexError`, modelled as `none`. -/
def pyGetI (t : Line) (i : Int) : Option Char :=
  if 0 ≤ i then t[i.toNat]?
  else if (t.length : Int) + i < 0 then none
  else t[((t.length : Int) + i).toNat]?

/-- `int(chunk_size * 0.3)`, the lookback window of `chunk_text` (exact
integer arithmetic; the float product agrees with `3*csz/10` for the chunk
sizes exercised here, e.g. 10, 15 and the default 1000). -/
def lookback (csz : Int) : Int := 3 * csz / 10

/-- The backward scan `for i in range(end, end - lookback, -1)` of
`chunk_text`: starting at index `i` with `k` indices left to try, return
`some (some (i'+1))` for the first sentence-terminal character found,
`some none` if the window is exhausted, `none` for an `IndexError`. -/
def findSplitGo (t : Line) : Int → Nat → Option (Option Int)
  | _, 0 => some none
  | i, k + 1 =>
      match pyGetI t i with
      | none => none
      | some c => if isTerminal c then some (some (i + 1)) else findSplitGo t (i - 1) k

/-- One iteration of the `while start < text_len` loop of `chunk_text`:
`none` on an `IndexError` in the lookback scan, otherwise the chosen `end`,
the next `start` (with the `if start >= end: start = end` guard applied)
and the chunk appended this round (if its stripped text is nonempty). -/
def chunkStep (t : Line) (csz ov start : Int) : Option (Int × Int × Option Line) :=
  let e0 := start + csz
  let eRes : Option Int :=
    if e0 < (t.length : Int) then
      match findSplitGo t e0 (lookback csz).toNat with
      | none => none
      | some none => some e0
      | some (some sp) => some sp
    else some e0
  match eRes with
  | none => none
  | some e =>
      let ch := pyStrip (pySlice t start e)
      let s1 := e - ov
      some (e, if s1 ≥ e then e else s1, if ch.isEmpty then none else some ch)

/-- The `while` loop of `chunk_text` with explicit fuel: `none` means the
fuel ran out or an `IndexError` was raised; a terminating Python loop is
`some` for every sufficiently large fuel. -/
def chunkRun (t : Line) (csz ov : Int) : Nat → Int → List Line → Option (List Line)
  | 0, _, _ => none
  | n + 1, start, acc =>
      if start < (t.length : Int) then
        match chunkStep t csz ov start with
        | none => none
        | some (_, s', chOpt) => chunkRun t csz ov n s' (acc ++ chOpt.toList)
      else some acc

/-- `chunk_text`: empty text short-circuits to `[]` before the loop (and
before any would-be argument validation). -/
def chunkText (t : Line) (csz ov : Int) (fuel : Nat) : Option (List Line) :=
  if t.isEmpty then some [] else chunkRun t csz ov fuel 0 []

/-- `chunkRun` instrumented to also record each iteration's
`(start, end)` window; its chunk component coincides with `chunkRun`. -/
def chunkRunW (t : Line) (csz ov : Int) :
    Nat → Int → List (Int × Int) → List Line → Option (List (Int × Int) × List Line)
  | 0, _, _, _ => none
  | n + 1, start, win, acc =>
      if start < (t.length : Int) then
        match chunkStep t csz ov start with
        | none => none
        | some (e, s', chOpt) =>
            chunkRunW t csz ov n s' (win ++ [(start, e)]) (acc ++ chOpt.toList)
      else some (win, acc)

/-- `t` contains an angle-bracket tag: some `<...>` span with a nonempty
body. -/
def HasTag (t : Line) : Prop :=
  ∃ a mid b, t = a ++ '<' :: (mid ++ '>' :: b) ∧ mid ≠ []

/-! ### Generic list infrastructure -/

theorem nilPfx (l : Line) : [] <+: l :=
  ⟨l, rfl⟩

theorem takePfx (n : Nat) (l : Line) : l.take n <+: l :=
  List.take_prefix n l

theorem dropSfx (n : Nat) (l : Line) : l.drop n <:+ l :=
  List.drop_suffix n l

theorem nilInfx (l : Line) : [] <:+: l :=
  ⟨[], l, rfl⟩

theorem infxConsIff {p l : Line} {a : Char} :
    p <:+: a :: l ↔ p <+: a :: l ∨ p <:+: l :=
  List.infix_cons_iff

theorem consPfxCons {a b : Char} {l₁ l₂ : Line} :
    a :: l₁ <+: b :: l₂ ↔ a = b ∧ l₁ <+: l₂ :=
  List.cons_prefix_cons

theorem pfxOrPfx {l₁ l₂ l₃ : Line} (h₁ : l₁ <+: l₃) (h₂ : l₂ <+: l₃) :
    l₁ <+: l₂ ∨ l₂ <+: l₁ :=
  List.prefix_or_prefix_of_prefix h₁ h₂

theorem isPrefixOfIff {l₁ l₂ : Line} : l₁.isPrefixOf l₂ = true ↔ l₁ <+: l₂ :=
  List.isPrefixOf_iff_prefix

theorem infxConsOf {p l : Line} {x : Char} (h : p <:+: l) : p <:+: x :: l :=
  List.infix_cons h

theorem infxNilIff {p : Line} : p <:+: [] ↔ p = [] := by
  constructor
  · rintro ⟨s, t, h⟩
    rcases List.append_eq_nil.mp (List.append_eq_nil.mp h).1 with ⟨-, h₂⟩
    exact h₂
  · rintro rfl
    exact nilInfx []

/-- `containsSub` decides the infix relation. -/
theorem containsSub_iff {p l : Line} : containsSub p l = true ↔ p <:+: l := by
  induction l with
  | nil =>
    simp only [containsSub, List.isEmpty_iff, infxNilIff]
  | cons c r ih =>
    simp only [containsSub, Bool.or_eq_true, isPrefixOfIff, ih]
    exact infxConsIff.symm

/-- An occurrence as a prefix cannot cross a separator character that the
pattern avoids. -/
theorem pfxSplit {c : Char} {b : Line} :
    ∀ (a p : Line), c ∉ p → p <+: a ++ c :: b → p <+: a := by
  intro a
  induction a with
  | nil =>
    intro p hc h
    cases p with
    | nil => exact nilPfx _
    | cons q p' =>
      rcases consPfxCons.mp h with ⟨rfl, -⟩
      exact absurd (List.mem_cons_self _ _) hc
  | cons x a' ih =>
    intro p hc h
    cases p with
    | nil => exact nilPfx _
    | cons q p' =>
      rcases consPfxCons.mp h with ⟨rfl, h'⟩
      have h'' := ih p' (fun hm => hc (List.mem_cons_of_mem _ hm)) h'
      exact consPfxCons.mpr ⟨rfl, h''⟩

/-- An occurrence as an infix lies on one side of a separator character
that the pattern avoids. -/
theorem infxSplit {c : Char} {b : Line} :
    ∀ (a p : Line), c ∉ p → p <:+: a ++ c :: b → p <:+: a ∨ p <:+: b := by
  intro a
  induction a with
  | nil =>
    intro p hc h
    rw [List.nil_append] at h
    rcases infxConsIff.mp h with h' | h'
    · cases p with
      | nil => exact Or.inl (nilInfx [])
      | cons q p' =>
        rcases consPfxCons.mp h' with ⟨rfl, -⟩
        exact absurd (List.mem_cons_self _ _) hc
    · exact Or.inr h'
  | cons x a' ih =>
    intro p hc h
    rcases infxConsIff.mp h with h' | h'
    · exact Or.inl (pfxSplit (x :: a') p hc h').isInfix
    · rcases ih p hc h' with h'' | h''
      · exact Or.inl (infxConsOf h'')
      · exact Or.inr h''

theorem joinSep_cons₂ (sep : Char) (x y : Line) (ys : List Line) :
    joinSep sep (x :: y :: ys) = x ++ sep :: joinSep sep (y :: ys) := rfl

/-- A pattern avoiding the separator occurs in a joined list only if it
occurs in one of the parts. -/
theorem joinSep_no_infx {p : Line} {sep : Char} (hsep : sep ∉ p) (hp : p ≠ []) :
    ∀ parts : List Line, (∀ x ∈ parts, ¬ p <:+: x) → ¬ p <:+: joinSep sep parts := by
  intro parts
  induction parts with
  | nil =>
    intro _ h
    exact hp (infxNilIff.mp h)
  | cons x xs ih =>
    intro hall h
    cases xs with
    | nil => exact hall x (List.mem_cons_self _ _) h
    | cons y ys =>
      rw [joinSep_cons₂] at h
      rcases infxSplit x p hsep h with h' | h'
      · exact hall x (List.mem_cons_self _ _) h'
      · exact ih (fun z hz => hall z (List.mem_cons_of_mem _ hz)) h'

/-! ### Stripping -/

theorem dropWhile_head_not {q : Char → Bool} :
    ∀ {l : Line} {c : Char} {r : Line}, l.dropWhile q = c :: r → q c = false := by
  intro l
  induction l with
  | nil => intro c r h; simp at h
  | cons x xs ih =>
    intro c r h
    rw [List.dropWhile_cons] at h
    by_cases hx : q x
    · rw [if_pos hx] at h
      exact ih h
    · rw [if_neg hx] at h
      cases h
      exact eq_false_of_ne_true hx

theorem dropWhile_dropWhile {q : Char → Bool} (l : Line) :
    (l.dropWhile q).dropWhile q = l.dropWhile q := by
  cases h : l.dropWhile q with
  | nil => rfl
  | cons c r =>
    rw [List.dropWhile_cons, dropWhile_head_not h]
    simp

theorem stripEnd_pfx (l : Line) : stripEnd l <+: l := by
  unfold stripEnd
  refine List.reverse_suffix.mp ?_
  simpa using List.dropWhile_suffix (l := l.reverse) pyIsSpace

theorem pyStrip_infx (l : Line) : pyStrip l <:+: l :=
  (stripEnd_pfx (l.dropWhile pyIsSpace)).isInfix.trans
    (List.dropWhile_suffix pyIsSpace).isInfix

theorem pyStrip_subset {c : Char} {l : Line} (h : c ∈ pyStrip l) : c ∈ l :=
  (pyStrip_infx l).subset h

theorem stripEnd_stripEnd (l : Line) : stripEnd (stripEnd l) = stripEnd l := by
  unfold stripEnd
  rw [List.reverse_reverse, dropWhile_dropWhile]

theorem head_of_pfx {p l : Line} (h : p <+: l) (hp : p ≠ []) : p.head? = l.head? := by
  rcases h with ⟨t, rfl⟩
  cases p with
  | nil => exact absurd rfl hp
  | cons c r => rfl

theorem dropWhile_stripEnd {l : Line} (h : l.dropWhile pyIsSpace = l) :
    (stripEnd l).dropWhile pyIsSpace = stripEnd l := by
  cases hse : stripEnd l with
  | nil => rfl
  | cons c r =>
    have hpfx := stripEnd_pfx l
    rw [hse] at hpfx
    have hhead : (c :: r).head? = l.head? := head_of_pfx hpfx (by simp)
    cases l with
    | nil => simp [stripEnd] at hse
    | cons x xs =>
      have hcx : c = x := by simpa using hhead
      have hx : pyIsSpace x = false := by
        by_cases hxs : pyIsSpace x
        · rw [List.dropWhile_cons, if_pos hxs] at h
          have hlen := congrArg List.length h
          have hle := (List.dropWhile_suffix (l := xs) pyIsSpace).length_le
          simp at hlen
          omega
        · exact eq_false_of_ne_true hxs
      subst hcx
      rw [List.dropWhile_cons, hx]
      simp

theorem pyStrip_idem (l : Line) : pyStrip (pyStrip l) = pyStrip l := by
  unfold pyStrip
  rw [dropWhile_stripEnd (dropWhile_dropWhile l), stripEnd_stripEnd]

theorem pyStrip_eq_nil {l : Line} (h : ∀ c ∈ l, pyIsSpace c) : pyStrip l = [] := by
  unfold pyStrip
  rw [List.dropWhile_eq_nil_iff.mpr h]
  rfl

theorem pyStrip_ne_nil {l : Line} {c : Char} (hc : c ∈ l) (hcs : pyIsSpace c = false) :
    pyStrip l ≠ [] := by
  intro h
  unfold pyStrip stripEnd at h
  have h' := congrArg List.reverse h
  rw [List.reverse_reverse] at h'
  have hall := List.dropWhile_eq_nil_iff.mp h'
  have hmem : c ∈ l.dropWhile pyIsSpace := by
    have hsplit : c ∈ List.takeWhile pyIsSpace l ++ List.dropWhile pyIsSpace l := by
      rw [List.takeWhile_append_dropWhile]
      exact hc
    rcases List.mem_append.mp hsplit with hm | hm
    · have htw := List.mem_takeWhile_imp hm
      rw [hcs] at htw
      exact absurd htw (by simp)
    · exact hm
  have := hall c (by simpa using hmem)
  rw [hcs] at this
  exact absurd this (by simp)

/-! ### HTML entity decoding -/

theorem unescape_cons_ne {c : Char} {r : Line} (hc : c ≠ '&') :
    unescape (c :: r) = c :: unescape r :=
  unescape.eq_11 c r (fun _ h _ => absurd h hc) (fun _ h _ => absurd h hc)
    (fun _ h _ => absurd h hc) (fun _ h _ => absurd h hc) (fun _ h _ => absurd h hc)
    (fun _ h _ => absurd h hc) (fun _ h _ => absurd h hc) (fun _ h _ => absurd h hc)
    (fun _ h _ => absurd h hc)

/-- On ampersand-free text, HTML decoding is the identity. -/
theorem unescape_id : ∀ {l : Line}, '&' ∉ l → unescape l = l := by
  intro l
  induction l with
  | nil => intro _; rfl
  | cons c r ih =>
    intro h
    have hc : c ≠ '&' := fun e => h (e ▸ List.mem_cons_self _ _)
    rw [unescape_cons_ne hc, ih (fun hm => h (List.mem_cons_of_mem _ hm))]

/-! ### Whitespace collapsing -/

theorem collapseGo_cons (flag : Bool) (c : Char) (r : Line) :
    collapseGo flag (c :: r) =
      if pyIsSpace c then (if flag then collapseGo true r else ' ' :: collapseGo true r)
      else c :: collapseGo false r := rfl

/-- A whitespace-free pattern occurring as a prefix of collapsed text
occurs as a prefix of the original (dropping leading whitespace in the
already-inside-a-run state). -/
theorem collapseGo_pfx_pres :
    ∀ (l p : Line), (∀ c ∈ p, pyIsSpace c = false) →
      (p <+: collapseGo false l → p <+: l) ∧
      (p <+: collapseGo true l → p <+: l.dropWhile pyIsSpace) := by
  intro l
  induction l with
  | nil => exact fun p _ => ⟨fun h => h, fun h => h⟩
  | cons c r ih =>
    intro p hp
    by_cases hc : pyIsSpace c
    · constructor
      · intro h
        rw [collapseGo_cons, if_pos hc, if_neg (by simp)] at h
        cases p with
        | nil => exact nilPfx _
        | cons q p' =>
          rcases consPfxCons.mp h with ⟨rfl, -⟩
          have := hp ' ' (List.mem_cons_self _ _)
          simp [pyIsSpace] at this
      · intro h
        rw [collapseGo_cons, if_pos hc, if_pos rfl] at h
        rw [List.dropWhile_cons, if_pos hc]
        exact (ih p hp).2 h
    · have hceq : pyIsSpace c = false := eq_false_of_ne_true hc
      have key : p <+: c :: collapseGo false r → p <+: c :: r := by
        intro h
        cases p with
        | nil => exact nilPfx _
        | cons q p' =>
          rcases consPfxCons.mp h with ⟨rfl, h'⟩
          exact consPfxCons.mpr
            ⟨rfl, (ih p' (fun d hd => hp d (List.mem_cons_of_mem _ hd))).1 h'⟩
      constructor
      · intro h
        rw [collapseGo_cons, if_neg hc] at h
        exact key h
      · intro h
        rw [collapseGo_cons, if_neg hc] at h
        rw [List.dropWhile_cons, hceq]
        simpa using key h

/-- A whitespace-free pattern occurring inside collapsed text occurs inside
the original. -/
theorem collapseGo_infx_pres {p : Line} (hp : ∀ c ∈ p, pyIsSpace c = false) :
    ∀ (l : Line) (flag : Bool), p <:+: collapseGo flag l → p <:+: l := by
  intro l
  induction l with
  | nil => intro flag h; simpa [collapseGo] using h
  | cons c r ih =>
    intro flag h
    by_cases hc : pyIsSpace c
    · rw [collapseGo_cons, if_pos hc] at h
      cases flag with
      | true => exact infxConsOf (ih true h)
      | false =>
        rw [if_neg (by simp)] at h
        rcases infxConsIff.mp h with h' | h'
        · cases p with
          | nil => exact nilInfx _
          | cons q p' =>
            rcases consPfxCons.mp h' with ⟨rfl, -⟩
            have := hp ' ' (List.mem_cons_self _ _)
            simp [pyIsSpace] at this
        · exact infxConsOf (ih true h')
    · rw [collapseGo_cons, if_neg hc] at h
      rcases infxConsIff.mp h with h' | h'
      · cases p with
        | nil => exact nilInfx _
        | cons q p' =>
          rcases consPfxCons.mp h' with ⟨rfl, h''⟩
          refine List.IsPrefix.isInfix (consPfxCons.mpr ⟨rfl, ?_⟩)
          exact (collapseGo_pfx_pres r p'
            (fun d hd => hp d (List.mem_cons_of_mem _ hd))).1 h''
      · exact infxConsOf (ih false h')

theorem collapseGo_mem {d : Char} :
    ∀ (l : Line) (flag : Bool), d ∈ collapseGo flag l → d ∈ l ∨ d = ' ' := by
  intro l
  induction l with
  | nil => intro flag h; simp [collapseGo] at h
  | cons c r ih =>
    intro flag h
    by_cases hc : pyIsSpace c
    · rw [collapseGo_cons, if_pos hc] at h
      cases flag with
      | true =>
        rcases ih true h with h' | h'
        · exact Or.inl (List.mem_cons_of_mem _ h')
        · exact Or.inr h'
      | false =>
        rw [if_neg (by simp)] at h
        rcases List.mem_cons.mp h with h' | h'
        · exact Or.inr h'
        · rcases ih true h' with h'' | h''
          · exact Or.inl (List.mem_cons_of_mem _ h'')
          · exact Or.inr h''
    · rw [collapseGo_cons, if_neg hc] at h
      rcases List.mem_cons.mp h with h' | h'
      · exact Or.inl (h' ▸ List.mem_cons_self _ _)
      · rcases ih false h' with h'' | h''
        · exact Or.inl (List.mem_cons_of_mem _ h'')
        · exact Or.inr h''

/-! ### Word splitting and reflow -/

theorem splitWords_cons (c : Char) (r : Line) :
    splitWords (c :: r) =
      if c = ' ' then [] :: splitWords r
      else
        match splitWords r with
        | [] => [[c]]
        | w :: ws => (c :: w) :: ws := rfl

theorem splitWords_ne_nil : ∀ l : Line, splitWords l ≠ [] := by
  intro l
  cases l with
  | nil => simp [splitWords]
  | cons c r =>
    rw [splitWords_cons]
    by_cases hc : c = ' '
    · simp [hc]
    · simp only [if_neg hc]
      cases splitWords r <;> simp

theorem joinSep_splitWords : ∀ l : Line, joinSep ' ' (splitWords l) = l := by
  intro l
  induction l with
  | nil => rfl
  | cons c r ih =>
    rw [splitWords_cons]
    by_cases hc : c = ' '
    · subst hc
      rw [if_pos rfl]
      cases hw : splitWords r with
      | nil => exact absurd hw (splitWords_ne_nil r)
      | cons w ws =>
        rw [joinSep_cons₂]
        rw [hw] at ih
        simpa using ih
    · rw [if_neg hc]
      cases hw : splitWords r with
      | nil => exact absurd hw (splitWords_ne_nil r)
      | cons w ws =>
        rw [hw] at ih
        cases ws with
        | nil =>
          simp only [joinSep] at ih ⊢
          rw [ih]
        | cons y ys =>
          rw [joinSep_cons₂] at ih
          rw [joinSep_cons₂, List.cons_append, ih]

theorem splitWords_head_pfx :
    ∀ (l : Line) (w : Line) (ws : List Line), splitWords l = w :: ws → w <+: l := by
  intro l
  induction l with
  | nil =>
    intro w ws h
    simp [splitWords] at h
    exact h.1 ▸ nilPfx _
  | cons c r ih =>
    intro w ws h
    rw [splitWords_cons] at h
    by_cases hc : c = ' '
    · rw [if_pos hc] at h
      cases h
      exact nilPfx _
    · rw [if_neg hc] at h
      cases hw : splitWords r with
      | nil => exact absurd hw (splitWords_ne_nil r)
      | cons w' ws' =>
        rw [hw] at h
        replace h : (c :: w') :: ws' = w :: ws := h
        injection h with h1 h2
        subst h1
        exact consPfxCons.mpr ⟨rfl, ih w' ws' hw⟩

theorem splitWords_infx : ∀ (l : Line) (w : Line), w ∈ splitWords l → w <:+: l := by
  intro l
  induction l with
  | nil =>
    intro w h
    simp [splitWords] at h
    exact h ▸ nilInfx _
  | cons c r ih =>
    intro w h
    rw [splitWords_cons] at h
    by_cases hc : c = ' '
    · rw [if_pos hc] at h
      rcases List.mem_cons.mp h with h' | h'
      · exact h' ▸ nilInfx _
      · exact infxConsOf (ih w h')
    · rw [if_neg hc] at h
      cases hw : splitWords r with
      | nil => exact absurd hw (splitWords_ne_nil r)
      | cons w' ws' =>
        rw [hw] at h
        replace h : w ∈ (c :: w') :: ws' := h
        rcases List.mem_cons.mp h with h' | h'
        · subst h'
          exact List.IsPrefix.isInfix (consPfxCons.mpr ⟨rfl, splitWords_head_pfx r w' ws' hw⟩)
        · exact infxConsOf (ih w (hw ▸ List.mem_cons_of_mem _ h'))

theorem wrapGo_zero (cur : Line) (ws : List Line) : wrapGo 0 cur ws = cur :: ws := rfl

theorem wrapGo_succ_nil (n : Nat) (cur : Line) : wrapGo (n + 1) cur [] = [cur] := rfl

theorem wrapGo_succ_cons (n : Nat) (cur w : Line) (rest : List Line) :
    wrapGo (n + 1) cur (w :: rest) =
      if cur.isEmpty then
        (if w.length ≤ 100 then wrapGo n w rest
         else w.take 100 :: wrapGo n [] (w.drop 100 :: rest))
      else if cur.length + 1 + w.length ≤ 100 then wrapGo n (cur ++ ' ' :: w) rest
      else cur :: wrapGo n [] (w :: rest) := rfl

/-- A space-free pattern absent from the current line and from every word
never occurs in any wrapped line. -/
theorem wrapGo_no_infx {p : Line} (hsp : ' ' ∉ p) :
    ∀ (n : Nat) (cur : Line) (ws : List Line), ¬ p <:+: cur → (∀ w ∈ ws, ¬ p <:+: w) →
      ∀ ln ∈ wrapGo n cur ws, ¬ p <:+: ln := by
  intro n
  induction n with
  | zero =>
    intro cur ws hcur hws ln hln
    rcases List.mem_cons.mp hln with h | h
    · exact h ▸ hcur
    · exact hws ln h
  | succ n ih =>
    intro cur ws hcur hws ln hln
    cases ws with
    | nil =>
      rw [wrapGo_succ_nil] at hln
      simp at hln
      exact hln ▸ hcur
    | cons w rest =>
      have hpw := hws w (List.mem_cons_self _ _)
      have hpne : p ≠ [] := fun e => hpw (e ▸ nilInfx w)
      have hpnil : ¬ p <:+: ([] : Line) := fun h => hpne (infxNilIff.mp h)
      have hrest : ∀ z ∈ rest, ¬ p <:+: z := fun z hz => hws z (List.mem_cons_of_mem _ hz)
      rw [wrapGo_succ_cons] at hln
      by_cases hE : cur.isEmpty
      · rw [if_pos hE] at hln
        by_cases hW : w.length ≤ 100
        · rw [if_pos hW] at hln
          exact ih w rest hpw hrest ln hln
        · rw [if_neg hW] at hln
          rcases List.mem_cons.mp hln with h | h
          · subst h
            intro hin
            exact hpw (hin.trans (takePfx 100 w).isInfix)
          · refine ih [] (w.drop 100 :: rest) hpnil ?_ ln h
            intro z hz
            rcases List.mem_cons.mp hz with h' | h'
            · subst h'
              intro hin
              exact hpw (hin.trans (List.drop_suffix 100 w).isInfix)
            · exact hrest z h'
      · rw [if_neg hE] at hln
        by_cases hF : cur.length + 1 + w.length ≤ 100
        · rw [if_pos hF] at hln
          refine ih (cur ++ ' ' :: w) rest ?_ hrest ln hln
          intro hin
          rcases infxSplit cur p hsp hin with h' | h'
          · exact hcur h'
          · exact hpw h'
        · rw [if_neg hF] at hln
          rcases List.mem_cons.mp hln with h | h
          · exact h ▸ hcur
          · exact ih [] (w :: rest) hpnil hws ln h

theorem wrapGo_mem {d : Char} :
    ∀ (n : Nat) (cur : Line) (ws : List Line) (ln : Line), ln ∈ wrapGo n cur ws → d ∈ ln →
      d ∈ cur ∨ (∃ w ∈ ws, d ∈ w) ∨ d = ' ' := by
  intro n
  induction n with
  | zero =>
    intro cur ws ln hln hd
    rcases List.mem_cons.mp hln with h | h
    · exact Or.inl (h ▸ hd)
    · exact Or.inr (Or.inl ⟨ln, h, hd⟩)
  | succ n ih =>
    intro cur ws ln hln hd
    cases ws with
    | nil =>
      rw [wrapGo_succ_nil] at hln
      simp at hln
      exact Or.inl (hln ▸ hd)
    | cons w rest =>
      rw [wrapGo_succ_cons] at hln
      by_cases hE : cur.isEmpty
      · rw [if_pos hE] at hln
        by_cases hW : w.length ≤ 100
        · rw [if_pos hW] at hln
          rcases ih w rest ln hln hd with h | h | h
          · exact Or.inr (Or.inl ⟨w, List.mem_cons_self _ _, h⟩)
          · rcases h with ⟨z, hz, hdz⟩
            exact Or.inr (Or.inl ⟨z, List.mem_cons_of_mem _ hz, hdz⟩)
          · exact Or.inr (Or.inr h)
        · rw [if_neg hW] at hln
          rcases List.mem_cons.mp hln with h | h
          · subst h
            exact Or.inr (Or.inl ⟨w, List.mem_cons_self _ _, List.take_subset 100 w hd⟩)
          · rcases ih [] (w.drop 100 :: rest) ln h hd with h' | h' | h'
            · simp at h'
            · rcases h' with ⟨z, hz, hdz⟩
              rcases List.mem_cons.mp hz with h'' | h''
              · subst h''
                exact Or.inr (Or.inl ⟨w, List.mem_cons_self _ _, List.drop_subset 100 w hdz⟩)
              · exact Or.inr (Or.inl ⟨z, List.mem_cons_of_mem _ h'', hdz⟩)
            · exact Or.inr (Or.inr h')
      · rw [if_neg hE] at hln
        by_cases hF : cur.length + 1 + w.length ≤ 100
        · rw [if_pos hF] at hln
          rcases ih (cur ++ ' ' :: w) rest ln hln hd with h | h | h
          · rcases List.mem_append.mp h with h' | h'
            · exact Or.inl h'
            · rcases List.mem_cons.mp h' with h'' | h''
              · exact Or.inr (Or.inr h'')
              · exact Or.inr (Or.inl ⟨w, List.mem_cons_self _ _, h''⟩)
          · rcases h with ⟨z, hz, hdz⟩
            exact Or.inr (Or.inl ⟨z, List.mem_cons_of_mem _ hz, hdz⟩)
          · exact Or.inr (Or.inr h)
        · rw [if_neg hF] at hln
          rcases List.mem_cons.mp hln with h | h
          · exact Or.inl (h ▸ hd)
          · rcases ih [] (w :: rest) ln h hd with h' | h' | h'
            · simp at h'
            · exact Or.inr (Or.inl h')
            · exact Or.inr (Or.inr h')

theorem joinSep_mem {d : Char} {sep : Char} :
    ∀ parts : List Line, d ∈ joinSep sep parts → (∃ x ∈ parts, d ∈ x) ∨ d = sep := by
  intro parts
  induction parts with
  | nil => intro h; simp [joinSep] at h
  | cons x xs ih =>
    intro h
    cases xs with
    | nil => exact Or.inl ⟨x, List.mem_cons_self _ _, h⟩
    | cons y ys =>
      rw [joinSep_cons₂] at h
      rcases List.mem_append.mp h with h' | h'
      · exact Or.inl ⟨x, List.mem_cons_self _ _, h'⟩
      · rcases List.mem_cons.mp h' with h'' | h''
        · exact Or.inr h''
        · rcases ih h'' with ⟨z, hz, hdz⟩ | h'''
          · exact Or.inl ⟨z, List.mem_cons_of_mem _ hz, hdz⟩
          · exact Or.inr h'''

/-- A pattern free of spaces and newlines absent from the collapsed text is
absent from its reflow. -/
theorem fill_no_infx {p : Line} (hsp : ' ' ∉ p) (hnl : '\n' ∉ p) {u : Line}
    (hu : ¬ p <:+: u) : ¬ p <:+: fill u := by
  have hpne : p ≠ [] := fun e => hu (e ▸ nilInfx u)
  intro h
  unfold fill at h
  refine joinSep_no_infx hnl hpne _ ?_ h
  intro ln hln
  refine wrapGo_no_infx hsp _ [] (splitWords u) (fun h' => hpne (infxNilIff.mp h')) ?_ ln hln
  intro w hw hpin
  exact hu (hpin.trans (splitWords_infx u w hw))

theorem fill_mem {d : Char} {u : Line} (h : d ∈ fill u) : d ∈ u ∨ d = ' ' ∨ d = '\n' := by
  unfold fill at h
  rcases joinSep_mem _ h with ⟨ln, hln, hdln⟩ | h'
  · rcases wrapGo_mem _ [] (splitWords u) ln hln hdln with h' | h' | h'
    · simp at h'
    · rcases h' with ⟨w, hw, hdw⟩
      exact Or.inl ((splitWords_infx u w hw).subset hdw)
    · exact Or.inr (Or.inl h')
  · exact Or.inr (Or.inr h')

/-- Fuel-sufficient single-line wrap: when everything fits in one line the
greedy packer emits exactly the joined line. -/
theorem wrapGo_single :
    ∀ (ws : List Line) (cur : Line) (n : Nat), cur ≠ [] →
      (joinSep ' ' (cur :: ws)).length ≤ 100 → ws.length + 1 ≤ n →
      wrapGo n cur ws = [joinSep ' ' (cur :: ws)] := by
  intro ws
  induction ws with
  | nil =>
    intro cur n _ _ hn
    cases n with
    | zero => omega
    | succ m => rfl
  | cons w rest ih =>
    intro cur n hcur hlen hn
    cases n with
    | zero => simp at hn
    | succ m =>
      have hglue : joinSep ' ' ((cur ++ ' ' :: w) :: rest) = joinSep ' ' (cur :: w :: rest) := by
        cases rest with
        | nil => simp [joinSep, joinSep_cons₂]
        | cons y ys => simp [joinSep_cons₂, List.append_assoc]
      have hlen2 : (joinSep ' ' (cur :: w :: rest)).length =
          cur.length + 1 + (joinSep ' ' (w :: rest)).length := by
        rw [joinSep_cons₂]
        simp
        omega
      have hwle : w.length ≤ (joinSep ' ' (w :: rest)).length := by
        cases rest with
        | nil => simp [joinSep]
        | cons y ys => rw [joinSep_cons₂]; simp
      rw [wrapGo_succ_cons, if_neg (by simpa [List.isEmpty_iff] using hcur),
        if_pos (by omega)]
      rw [ih (cur ++ ' ' :: w) m (by simp) (by rw [hglue]; exact hlen) (by simpa using hn),
        hglue]

/-- Reflow is the identity on single-line text that does not start with a
space. -/
theorem fill_id {c : Char} {r : Line} (hc : c ≠ ' ') (hlen : (c :: r).length ≤ 100) :
    fill (c :: r) = c :: r := by
  unfold fill
  cases hw : splitWords (c :: r) with
  | nil => exact absurd hw (splitWords_ne_nil _)
  | cons w0 rest =>
    have hjoin : joinSep ' ' (w0 :: rest) = c :: r := by
      rw [← hw, joinSep_splitWords]
    have hw0 : w0 ≠ [] := by
      rw [splitWords_cons, if_neg hc] at hw
      cases hw' : splitWords r with
      | nil => exact absurd hw' (splitWords_ne_nil r)
      | cons w' ws' =>
        rw [hw'] at hw
        replace hw : (c :: w') :: ws' = w0 :: rest := hw
        injection hw with h1 h2
        rw [← h1]
        simp
    have hlen0 : w0.length ≤ 100 := by
      have := splitWords_head_pfx (c :: r) w0 rest hw
      have := this.length_le
      omega
    have hfuel : (c :: r).length + 2 * (w0 :: rest).length + 2 ≥ 1 := by omega
    dsimp only
    cases hN : (c :: r).length + 2 * (w0 :: rest).length + 2 with
    | zero => omega
    | succ m =>
      rw [wrapGo_succ_cons, if_pos (by simp), if_pos hlen0]
      rw [wrapGo_single rest w0 m hw0 (by rw [hjoin]; exact hlen) (by simp at hN ⊢; omega)]
      rw [hjoin]
      rfl

/-! ### Deduplication -/

theorem dedupStep_mem {acc : List Line} {l x : Line} (h : x ∈ dedupStep acc l) :
    x ∈ acc ∨ x = l := by
  unfold dedupStep at h
  cases hg : acc.getLast? with
  | none =>
    rw [hg] at h
    simp at h
    exact Or.inr h
  | some last =>
    rw [hg] at h
    replace h : x ∈ (if List.isPrefixOf last l then acc.dropLast ++ [l]
      else if List.isPrefixOf l last then acc else acc ++ [l]) := h
    by_cases h1 : last.isPrefixOf l
    · rw [if_pos h1] at h
      rcases List.mem_append.mp h with h' | h'
      · exact Or.inl (List.mem_of_mem_dropLast h')
      · simp at h'
        exact Or.inr h'
    · rw [if_neg h1] at h
      by_cases h2 : l.isPrefixOf last
      · rw [if_pos h2] at h
        exact Or.inl h
      · rw [if_neg h2] at h
        rcases List.mem_append.mp h with h' | h'
        · exact Or.inl h'
        · simp at h'
          exact Or.inr h'

theorem dedupFold_aux_mem :
    ∀ (lines : List Line) (acc : List Line) (x : Line),
      x ∈ lines.foldl dedupStep acc → x ∈ acc ∨ x ∈ lines := by
  intro lines
  induction lines with
  | nil => intro acc x h; exact Or.inl h
  | cons l ls ih =>
    intro acc x h
    rcases ih (dedupStep acc l) x h with h' | h'
    · rcases dedupStep_mem h' with h'' | h''
      · exact Or.inl h''
      · exact Or.inr (h'' ▸ List.mem_cons_self _ _)
    · exact Or.inr (List.mem_cons_of_mem _ h')

theorem dedupFold_mem {lines : List Line} {x : Line} (h : x ∈ dedupFold lines) :
    x ∈ lines := by
  rcases dedupFold_aux_mem lines [] x h with h' | h'
  · simp at h'
  · exact h'

/-! ### Line splitting -/

theorem splitLines_cons_other {c : Char} (r : Line) (h1 : c ≠ '\n') (h2 : c ≠ '\r') :
    splitLines (c :: r) =
      match splitLines r with
      | [] => [[c]]
      | w :: ws => (c :: w) :: ws := by
  rw [splitLines.eq_def]
  split
  · rename_i heq; simp at heq
  · rename_i heq; injection heq with a b; exact absurd a h2
  · rename_i heq; injection heq with a b; exact absurd a h1
  · rename_i heq; injection heq with a b; exact absurd a h2
  · rename_i heq; injection heq with a b; subst a; subst b; rfl

theorem splitLines_cr_cons {c' : Char} (r' : Line) (h3 : c' ≠ '\n') :
    splitLines ('\r' :: c' :: r') = [] :: splitLines (c' :: r') := by
  rw [splitLines.eq_def]
  split
  · rename_i heq; simp at heq
  · rename_i heq
    injection heq with a b
    injection b with b1 b2
    exact absurd b1 h3
  · rename_i heq
    injection heq with a b
    exact absurd a (by decide)
  · rename_i heq
    injection heq with a b
    subst b
    rfl
  · rename_i hx1 hx2 hx3 heq
    injection heq with a b
    exact absurd a.symm hx3

theorem splitLines_mem {d : Char} :
    ∀ (l : Line) (w : Line), w ∈ splitLines l → d ∈ w → d ∈ l := by
  intro l
  induction l with
  | nil => intro w h; simp [splitLines] at h
  | cons c r ih =>
    intro w h hd
    by_cases h1 : c = '\n'
    · subst h1
      replace h : w ∈ [] :: splitLines r := h
      rcases List.mem_cons.mp h with h' | h'
      · subst h'; simp at hd
      · exact List.mem_cons_of_mem _ (ih w h' hd)
    · by_cases h2 : c = '\r'
      · subst h2
        cases r with
        | nil =>
          replace h : w ∈ [[]] := h
          simp at h
          subst h; simp at hd
        | cons c' r' =>
          by_cases h3 : c' = '\n'
          · subst h3
            replace h : w ∈ [] :: splitLines r' := h
            rcases List.mem_cons.mp h with h' | h'
            · subst h'; simp at hd
            · have hmem : w ∈ splitLines ('\n' :: r') := List.mem_cons_of_mem _ h'
              exact List.mem_cons_of_mem _ (ih w hmem hd)
          · rw [splitLines_cr_cons r' h3] at h
            rcases List.mem_cons.mp h with h' | h'
            · subst h'; simp at hd
            · exact List.mem_cons_of_mem _ (ih w h' hd)
      · rw [splitLines_cons_other r h1 h2] at h
        cases hw : splitLines r with
        | nil =>
          rw [hw] at h
          replace h : w ∈ [[c]] := h
          simp at h
          subst h
          rcases List.mem_cons.mp hd with h' | h'
          · exact h' ▸ List.mem_cons_self _ _
          · simp at h'
        | cons w' ws' =>
          rw [hw] at h
          replace h : w ∈ (c :: w') :: ws' := h
          rcases List.mem_cons.mp h with h' | h'
          · subst h'
            rcases List.mem_cons.mp hd with h' | h'
            · exact h' ▸ List.mem_cons_self _ _
            · exact List.mem_cons_of_mem _ (ih w' (hw ▸ List.mem_cons_self _ _) h')
          · exact List.mem_cons_of_mem _ (ih w (hw ▸ List.mem_cons_of_mem _ h') hd)

/-! ### Tag removal and the line filter -/

theorem tagGo_none_cons (c : Char) (r : Line) :
    tagGo none (c :: r) = if c = '<' then tagGo (some []) r else c :: tagGo none r := rfl

/-- Tag removal is the identity on text without `<`. -/
theorem tagRemove_id : ∀ {s : Line}, '<' ∉ s → tagRemove s = s := by
  intro s
  induction s with
  | nil => intro _; rfl
  | cons c r ih =>
    intro h
    have hc : c ≠ '<' := fun e => h (e ▸ List.mem_cons_self _ _)
    unfold tagRemove at ih ⊢
    rw [tagGo_none_cons, if_neg hc, ih (fun hm => h (List.mem_cons_of_mem _ hm))]

theorem keepLine_none_ws {l : Line} (h : ∀ c ∈ l, pyIsSpace c) : keepLine l = none := by
  unfold keepLine
  simp only [pyStrip_eq_nil h, List.isEmpty_nil, if_true]

theorem keepLine_some_core {l l2 : Line} (hamp : '&' ∉ l) (h : keepLine l = some l2) :
    l2 = pyStrip (pyStrip l) ∧ containsSub arrowMark (pyStrip l) = false := by
  simp only [keepLine] at h
  split_ifs at h with h1 h2 h3 h4
  have hup : '&' ∉ pyStrip l := fun hm => hamp (pyStrip_subset hm)
  rw [unescape_id hup] at h
  injection h with h'
  refine ⟨h'.symm, ?_⟩
  simp only [Bool.or_eq_true, not_or] at h2
  exact eq_false_of_ne_true h2.2

theorem keepLine_some_arrow {l l2 : Line} (hamp : '&' ∉ l) (h : keepLine l = some l2) :
    ¬ arrowMark <:+: l2 := by
  rcases keepLine_some_core hamp h with ⟨rfl, harr⟩
  intro hin
  have : arrowMark <:+: pyStrip l := hin.trans (pyStrip_infx _)
  rw [containsSub_iff.mpr this] at harr
  exact absurd harr (by simp)

theorem keepLine_some_subset {l l2 : Line} (hamp : '&' ∉ l) (h : keepLine l = some l2) :
    ∀ d ∈ l2, d ∈ l := by
  rcases keepLine_some_core hamp h with ⟨rfl, -⟩
  exact fun d hd => pyStrip_subset (pyStrip_subset hd)

theorem hasTag_mem {t : Line} (h : HasTag t) : '<' ∈ t := by
  rcases h with ⟨a, mid, b, rfl, -⟩
  simp

/-- The fragments surviving `clean_vtt_content`'s filter on `&`-free input
contain no `-->` and only characters of the input. -/
theorem cleanLines_props {s : Line} (hamp : '&' ∉ s) {l2 : Line}
    (h : l2 ∈ (splitLines (tagRemove s)).filterMap keepLine) (hlt : '<' ∉ s) :
    ¬ arrowMark <:+: l2 ∧ ∀ d ∈ l2, d ∈ s := by
  rw [tagRemove_id hlt] at h
  rcases List.mem_filterMap.mp h with ⟨line, hline, hk⟩
  have hsub : ∀ d ∈ line, d ∈ s := fun d hd => splitLines_mem s line hline hd
  have hampl : '&' ∉ line := fun hm => hamp (hsub _ hm)
  exact ⟨keepLine_some_arrow hampl hk,
    fun d hd => hsub d (keepLine_some_subset hampl hk d hd)⟩

/-- Master lemma for C4: on input free of `&` and `<`, the normalizer
output contains no `-->` and no `<`. -/
theorem cleanVtt_clean {s : Line} (hamp : '&' ∉ s) (hlt : '<' ∉ s) :
    ¬ arrowMark <:+: cleanVttContent s ∧ '<' ∉ cleanVttContent s := by
  have harrne : arrowMark ≠ [] := by decide
  have harrsp : ' ' ∉ arrowMark := by decide
  have harrnl : '\n' ∉ arrowMark := by decide
  have harrws : ∀ c ∈ arrowMark, pyIsSpace c = false := by decide
  unfold cleanVttContent
  dsimp only
  set cl := (splitLines (tagRemove s)).filterMap keepLine with hcl
  have hfrag : ∀ l2 ∈ dedupFold cl, ¬ arrowMark <:+: l2 ∧ ∀ d ∈ l2, d ∈ s := by
    intro l2 hl2
    exact cleanLines_props hamp (dedupFold_mem hl2) hlt
  have hJ : ¬ arrowMark <:+: joinSep ' ' (dedupFold cl) :=
    joinSep_no_infx harrsp harrne _ (fun x hx => (hfrag x hx).1)
  have hC : ¬ arrowMark <:+: collapse (joinSep ' ' (dedupFold cl)) := by
    intro hin
    exact hJ (collapseGo_infx_pres harrws _ false hin)
  have hF : ¬ arrowMark <:+: pyStrip (collapse (joinSep ' ' (dedupFold cl))) := by
    intro hin
    exact hC (hin.trans (pyStrip_infx _))
  have hmemF : ∀ d ∈ pyStrip (collapse (joinSep ' ' (dedupFold cl))),
      d ∈ s ∨ d = ' ' := by
    intro d hd
    rcases collapseGo_mem _ false (pyStrip_subset hd) with h' | h'
    · rcases joinSep_mem _ h' with ⟨x, hx, hdx⟩ | h''
      · exact Or.inl ((hfrag x hx).2 d hdx)
      · exact Or.inr h''
    · exact Or.inr h'
  split_ifs with hE
  · constructor
    · exact fun h => harrne (infxNilIff.mp h)
    · simp
  · constructor
    · exact fill_no_infx harrsp harrnl hF
    · intro hmem
      rcases fill_mem hmem with h' | h' | h'
      · rcases hmemF _ h' with h'' | h''
        · exact hlt h''
        · exact absurd h'' (by decide)
      · exact absurd h' (by decide)
      · exact absurd h' (by decide)

/-- A string with no line-break characters splits into the single line
itself. -/
theorem splitLines_single : ∀ {l : Line}, l ≠ [] → '\n' ∉ l → '\r' ∉ l →
    splitLines l = [l] := by
  intro l
  induction l with
  | nil => intro h; exact absurd rfl h
  | cons c r ih =>
    intro _ hn hr
    have h1 : c ≠ '\n' := fun e => hn (e ▸ List.mem_cons_self _ _)
    have h2 : c ≠ '\r' := fun e => hr (e ▸ List.mem_cons_self _ _)
    rw [splitLines_cons_other r h1 h2]
    cases r with
    | nil => rfl
    | cons c' r' =>
      rw [ih (by simp) (fun hm => hn (List.mem_cons_of_mem _ hm))
        (fun hm => hr (List.mem_cons_of_mem _ hm))]

/-! ### The normalizer on already-clean input -/

theorem pyStrip_self_dropWhile {l : Line} (h : pyStrip l = l) :
    l.dropWhile pyIsSpace = l := by
  have h1 := (stripEnd_pfx (l.dropWhile pyIsSpace)).length_le
  have h2 := (List.dropWhile_suffix (l := l) pyIsSpace).length_le
  have h3 : (pyStrip l).length = l.length := by rw [h]
  unfold pyStrip at h3
  exact (List.dropWhile_suffix pyIsSpace).eq_of_length (by omega)

/-- The normalizer of the empty stream. -/
theorem cleanVtt_nil : cleanVttContent [] = [] := rfl

/-- The normalizer of a whitespace-only stream. -/
theorem cleanVtt_ws {s : Line} (h : ∀ c ∈ s, pyIsSpace c) : cleanVttContent s = [] := by
  have hlt : '<' ∉ s := fun hm => by
    have := h _ hm
    simp [pyIsSpace] at this
  unfold cleanVttContent
  dsimp only
  rw [tagRemove_id hlt]
  rw [List.filterMap_eq_nil_iff.mpr
    (fun line hline => keepLine_none_ws (fun c hc => h c (splitLines_mem s line hline hc)))]
  rfl

/-- The normalizer is the identity on a nonempty single line that fits in
the wrap width, is stripped and space-collapsed, and contains none of the
characters or markers that any cleaning step reacts to. -/
theorem cleanVtt_fixed {t : Line} (h0 : t ≠ []) (hlen : t.length ≤ 100)
    (hnl : '\n' ∉ t) (hcr : '\r' ∉ t) (hamp : '&' ∉ t) (hlt : '<' ∉ t)
    (hm1 : containsSub webvttMark t = false) (hm2 : containsSub kindMark t = false)
    (hm3 : containsSub languageMark t = false) (hm4 : containsSub arrowMark t = false)
    (hdig : pyIsDigit t = false) (hstrip : pyStrip t = t) (hcoll : collapse t = t) :
    cleanVttContent t = t := by
  have hk : keepLine t = some t := by
    unfold keepLine
    simp only [hstrip, unescape_id hamp, hm1, hm2, hm3, hm4, hdig]
    simp [List.isEmpty_iff, h0]
  unfold cleanVttContent
  dsimp only
  rw [tagRemove_id hlt, splitLines_single h0 hnl hcr]
  rw [show ([t] : List Line).filterMap keepLine = [t] by simp [hk]]
  rw [show dedupFold [t] = [t] from rfl]
  rw [show joinSep ' ' [t] = t from rfl]
  rw [hcoll, hstrip]
  rw [if_neg (by simpa [List.isEmpty_iff] using h0)]
  cases ht : t with
  | nil => exact absurd ht h0
  | cons c r =>
    have hdw : (c :: r).dropWhile pyIsSpace = c :: r := by
      rw [← ht]
      exact pyStrip_self_dropWhile hstrip
    have hcs : pyIsSpace c = false := dropWhile_head_not hdw
    have hc : c ≠ ' ' := by
      intro e
      rw [e] at hcs
      simp [pyIsSpace] at hcs
    rw [ht] at hlen
    exact fill_id hc hlen

/-! ### The deduplication invariant -/

theorem dedupStep_chain {acc : List Line} {l : Line}
    (h : List.Chain' (fun a b => ¬ a <+: b ∧ ¬ b <+: a) acc) :
    List.Chain' (fun a b => ¬ a <+: b ∧ ¬ b <+: a) (dedupStep acc l) := by
  unfold dedupStep
  cases hg : acc.getLast? with
  | none => exact List.chain'_singleton l
  | some last =>
    have hacc : acc.dropLast ++ [last] = acc := List.dropLast_append_getLast? last hg
    show List.Chain' (fun a b => ¬ a <+: b ∧ ¬ b <+: a)
      (if List.isPrefixOf last l then acc.dropLast ++ [l]
       else if List.isPrefixOf l last then acc else acc ++ [l])
    by_cases h1 : last.isPrefixOf l
    · rw [if_pos h1]
      refine List.Chain'.append h.init (List.chain'_singleton l) ?_
      intro x hx y hy
      simp at hy
      subst hy
      have hRxlast : ¬ x <+: last ∧ ¬ last <+: x := by
        rw [← hacc] at h
        rcases List.chain'_append.mp h with ⟨-, -, hb⟩
        exact hb x hx last rfl
      have hpl : last <+: l := isPrefixOfIff.mp h1
      constructor
      · intro hxl
        rcases pfxOrPfx hxl hpl with h' | h'
        · exact hRxlast.1 h'
        · exact hRxlast.2 h'
      · intro hlx
        exact hRxlast.2 (hpl.trans hlx)
    · rw [if_neg h1]
      by_cases h2 : l.isPrefixOf last
      · rw [if_pos h2]
        exact h
      · rw [if_neg h2]
        refine List.Chain'.append h (List.chain'_singleton l) ?_
        intro x hx y hy
        simp at hy
        subst hy
        rw [hg] at hx
        simp at hx
        subst hx
        exact ⟨fun hp => h1 (isPrefixOfIff.mpr hp), fun hp => h2 (isPrefixOfIff.mpr hp)⟩

theorem dedupFold_aux_chain :
    ∀ (lines acc : List Line),
      List.Chain' (fun a b => ¬ a <+: b ∧ ¬ b <+: a) acc →
      List.Chain' (fun a b => ¬ a <+: b ∧ ¬ b <+: a) (lines.foldl dedupStep acc) := by
  intro lines
  induction lines with
  | nil => exact fun acc h => h
  | cons l ls ih => exact fun acc h => ih (dedupStep acc l) (dedupStep_chain h)

/-! ### Chunker lemmas -/

theorem findSplitGo_bounds {t : Line} :
    ∀ (k : Nat) (i sp : Int), findSplitGo t i k = some (some sp) →
      i - k + 2 ≤ sp ∧ sp ≤ i + 1 := by
  intro k
  induction k with
  | zero =>
    intro i sp h
    simp [findSplitGo] at h
  | succ k ih =>
    intro i sp h
    unfold findSplitGo at h
    cases hg : pyGetI t i with
    | none =>
      rw [hg] at h
      replace h : (none : Option (Option Int)) = some (some sp) := h
      simp at h
    | some c =>
      rw [hg] at h
      replace h : (if isTerminal c then some (some (i + 1))
        else findSplitGo t (i - 1) k) = some (some sp) := h
      by_cases hterm : isTerminal c
      · rw [if_pos hterm] at h
        injection h with h'
        injection h' with h''
        omega
      · rw [if_neg hterm] at h
        have := ih (i - 1) sp h
        omega

theorem lookback_lt {csz : Int} (h : 0 < csz) : lookback csz < csz := by
  unfold lookback
  omega

theorem lookback_nonneg {csz : Int} (h : 0 < csz) : 0 ≤ lookback csz := by
  unfold lookback
  omega

theorem pySlice_infx (t : Line) (i j : Int) : pySlice t i j <:+: t :=
  ((dropSfx _ _).isInfix).trans (takePfx _ t).isInfix

theorem pySlice_len (t : Line) {i j : Int} (hij : i ≤ j) :
    ((pySlice t i j).length : Int) ≤ j - i := by
  unfold pySlice pyBound
  rw [List.length_drop, List.length_take]
  split_ifs <;> omega

/-- The anatomy of one successful loop iteration of `chunk_text`. -/
theorem chunkStep_inv {t : Line} {csz ov start : Int} {res : Int × Int × Option Line}
    (h : chunkStep t csz ov start = some res) (hcsz : 0 < csz) :
    ∃ e, res = (e, if e - ov ≥ e then e else e - ov,
        if (pyStrip (pySlice t start e)).isEmpty then none
        else some (pyStrip (pySlice t start e))) ∧
      start < e ∧ e ≤ start + csz + 1 := by
  unfold chunkStep at h
  dsimp only at h
  by_cases hlt : start + csz < (t.length : Int)
  · rw [if_pos hlt] at h
    cases hfs : findSplitGo t (start + csz) (lookback csz).toNat with
    | none =>
      rw [hfs] at h
      replace h : (none : Option (Int × Int × Option Line)) = some res := h
      simp at h
    | some o =>
      rw [hfs] at h
      cases o with
      | none =>
        replace h : some (start + csz, if start + csz - ov ≥ start + csz then start + csz
          else start + csz - ov,
          if (pyStrip (pySlice t start (start + csz))).isEmpty then none
          else some (pyStrip (pySlice t start (start + csz)))) = some res := h
        injection h with h'
        exact ⟨start + csz, h'.symm, by omega, by omega⟩
      | some sp =>
        replace h : some (sp, if sp - ov ≥ sp then sp else sp - ov,
          if (pyStrip (pySlice t start sp)).isEmpty then none
          else some (pyStrip (pySlice t start sp))) = some res := h
        injection h with h'
        rcases findSplitGo_bounds _ _ _ hfs with ⟨hlo, hhi⟩
        have hlb1 : lookback csz < csz := lookback_lt hcsz
        have hlb2 : 0 ≤ lookback csz := lookback_nonneg hcsz
        have htn : ((lookback csz).toNat : Int) = lookback csz := Int.toNat_of_nonneg hlb2
        refine ⟨sp, h'.symm, by omega, by omega⟩
  · rw [if_neg hlt] at h
    replace h : some (start + csz, if start + csz - ov ≥ start + csz then start + csz
      else start + csz - ov,
      if (pyStrip (pySlice t start (start + csz))).isEmpty then none
      else some (pyStrip (pySlice t start (start + csz)))) = some res := h
    injection h with h'
    exact ⟨start + csz, h'.symm, by omega, by omega⟩

theorem chunkRun_succ (t : Line) (csz ov : Int) (n : Nat) (start : Int) (acc : List Line) :
    chunkRun t csz ov (n + 1) start acc =
      if start < (t.length : Int) then
        match chunkStep t csz ov start with
        | none => none
        | some (_, s', chOpt) => chunkRun t csz ov n s' (acc ++ chOpt.toList)
      else some acc := rfl

theorem chunkRunW_succ (t : Line) (csz ov : Int) (n : Nat) (start : Int)
    (win : List (Int × Int)) (acc : List Line) :
    chunkRunW t csz ov (n + 1) start win acc =
      if start < (t.length : Int) then
        match chunkStep t csz ov start with
        | none => none
        | some (e, s', chOpt) =>
            chunkRunW t csz ov n s' (win ++ [(start, e)]) (acc ++ chOpt.toList)
      else some (win, acc) := rfl

/-- Every chunk a terminating run returns is a nonempty stripped infix of
the text of length at most `chunk_size + 1`. -/
theorem chunkRun_inv {t : Line} {csz ov : Int} (hcsz : 0 < csz) :
    ∀ (n : Nat) (start : Int) (acc out : List Line),
      chunkRun t csz ov n start acc = some out →
      (∀ x ∈ acc, x ≠ [] ∧ (x.length : Int) ≤ csz + 1 ∧ x <:+: t ∧ pyStrip x = x) →
      ∀ x ∈ out, x ≠ [] ∧ (x.length : Int) ≤ csz + 1 ∧ x <:+: t ∧ pyStrip x = x := by
  intro n
  induction n with
  | zero =>
    intro start acc out h _
    replace h : (none : Option (List Line)) = some out := h
    simp at h
  | succ n ih =>
    intro start acc out h hacc
    rw [chunkRun_succ] at h
    by_cases hlt : start < (t.length : Int)
    · rw [if_pos hlt] at h
      cases hstep : chunkStep t csz ov start with
      | none =>
        rw [hstep] at h
        replace h : (none : Option (List Line)) = some out := h
        simp at h
      | some res =>
        rw [hstep] at h
        rcases chunkStep_inv hstep hcsz with ⟨e, rfl, hlt2, hle⟩
        replace h : chunkRun t csz ov n (if e - ov ≥ e then e else e - ov)
          (acc ++ (if (pyStrip (pySlice t start e)).isEmpty then none
            else some (pyStrip (pySlice t start e))).toList) = some out := h
        refine ih _ _ out h ?_
        intro x hx
        rcases List.mem_append.mp hx with hx' | hx'
        · exact hacc x hx'
        · by_cases hE : (pyStrip (pySlice t start e)).isEmpty
          · rw [if_pos hE] at hx'
            simp at hx'
          · rw [if_neg hE] at hx'
            simp at hx'
            subst hx'
            refine ⟨by simpa [List.isEmpty_iff] using hE, ?_,
              (pyStrip_infx _).trans (pySlice_infx t start e), pyStrip_idem _⟩
            have hsl : ((pySlice t start e).length : Int) ≤ e - start :=
              pySlice_len t (le_of_lt hlt2)
            have hsub := (pyStrip_infx (pySlice t start e)).sublist.length_le
            omega
    · rw [if_neg hlt] at h
      injection h with h'
      subst h'
      exact hacc

/-- The instrumented run computes the same chunks as the plain one. -/
theorem chunkRunW_fst {t : Line} {csz ov : Int} :
    ∀ (n : Nat) (start : Int) (win : List (Int × Int)) (acc : List Line)
      (ws : List (Int × Int)) (out : List Line),
      chunkRunW t csz ov n start win acc = some (ws, out) →
      chunkRun t csz ov n start acc = some out := by
  intro n
  induction n with
  | zero =>
    intro start win acc ws out h
    replace h : (none : Option (List (Int × Int) × List Line)) = some (ws, out) := h
    simp at h
  | succ n ih =>
    intro start win acc ws out h
    rw [chunkRunW_succ] at h
    rw [chunkRun_succ]
    by_cases hlt : start < (t.length : Int)
    · rw [if_pos hlt] at h
      rw [if_pos hlt]
      cases hstep : chunkStep t csz ov start with
      | none =>
        rw [hstep] at h
        replace h : (none : Option (List (Int × Int) × List Line)) = some (ws, out) := h
        simp at h
      | some res =>
        rw [hstep] at h
        rcases res with ⟨e, s', chOpt⟩
        exact ih s' (win ++ [(start, e)]) (acc ++ chOpt.toList) ws out h
    · rw [if_neg hlt] at h
      rw [if_neg hlt]
      injection h with h'
      injection h' with h1 h2
      rw [h2]

theorem chunkRunW_mono {t : Line} {csz ov : Int} :
    ∀ (n : Nat) (start : Int) (win : List (Int × Int)) (acc : List Line)
      (ws : List (Int × Int)) (out : List Line),
      chunkRunW t csz ov n start win acc = some (ws, out) →
      (∀ w ∈ win, w ∈ ws) ∧ ∀ x ∈ acc, x ∈ out := by
  intro n
  induction n with
  | zero =>
    intro start win acc ws out h
    replace h : (none : Option (List (Int × Int) × List Line)) = some (ws, out) := h
    simp at h
  | succ n ih =>
    intro start win acc ws out h
    rw [chunkRunW_succ] at h
    by_cases hlt : start < (t.length : Int)
    · rw [if_pos hlt] at h
      cases hstep : chunkStep t csz ov start with
      | none =>
        rw [hstep] at h
        replace h : (none : Option (List (Int × Int) × List Line)) = some (ws, out) := h
        simp at h
      | some res =>
        rw [hstep] at h
        rcases res with ⟨e, s', chOpt⟩
        rcases ih s' (win ++ [(start, e)]) (acc ++ chOpt.toList) ws out h with ⟨hw, hx⟩
        exact ⟨fun w hwin => hw w (List.mem_append_left _ hwin),
          fun x hxa => hx x (List.mem_append_left _ hxa)⟩
    · rw [if_neg hlt] at h
      injection h with h'
      injection h' with h1 h2
      subst h1
      subst h2
      exact ⟨fun w hw => hw, fun x hx => hx⟩

/-- Every text position at or beyond the current cursor is covered by some
visited `(start, end)` window of a terminating run. -/
theorem chunkRunW_cover {t : Line} {csz ov : Int} (hcsz : 0 < csz) :
    ∀ (n : Nat) (start : Int) (win : List (Int × Int)) (acc : List Line)
      (ws : List (Int × Int)) (out : List Line),
      chunkRunW t csz ov n start win acc = some (ws, out) →
      ∀ i : Int, start ≤ i → i < (t.length : Int) →
        ∃ w ∈ ws, w.1 ≤ i ∧ i < w.2 := by
  intro n
  induction n with
  | zero =>
    intro start win acc ws out h
    replace h : (none : Option (List (Int × Int) × List Line)) = some (ws, out) := h
    simp at h
  | succ n ih =>
    intro start win acc ws out h i hsi hil
    rw [chunkRunW_succ] at h
    by_cases hlt : start < (t.length : Int)
    · rw [if_pos hlt] at h
      cases hstep : chunkStep t csz ov start with
      | none =>
        rw [hstep] at h
        replace h : (none : Option (List (Int × Int) × List Line)) = some (ws, out) := h
        simp at h
      | some res =>
        rw [hstep] at h
        rcases chunkStep_inv hstep hcsz with ⟨e, rfl, hlt2, hle⟩
        replace h : chunkRunW t csz ov n (if e - ov ≥ e then e else e - ov)
          (win ++ [(start, e)])
          (acc ++ (if (pyStrip (pySlice t start e)).isEmpty then none
            else some (pyStrip (pySlice t start e))).toList) = some (ws, out) := h
        by_cases hie : i < e
        · refine ⟨(start, e), ?_, hsi, hie⟩
          exact (chunkRunW_mono n _ _ _ ws out h).1 (start, e)
            (List.mem_append_right _ (List.mem_cons_self _ _))
        · refine ih _ _ _ ws out h i ?_ hil
          split_ifs <;> omega
    · rw [if_neg hlt] at h
      omega

/-- The first loop iteration's chunk is nonempty when the text starts with
a non-whitespace character. -/
theorem first_chunk_ne {c0 : Char} {r : Line} (hc0 : pyIsSpace c0 = false)
    {e : Int} (he : 1 ≤ e) : pyStrip (pySlice (c0 :: r) 0 e) ≠ [] := by
  apply pyStrip_ne_nil _ hc0
  show c0 ∈ pySlice (c0 :: r) 0 e
  unfold pySlice pyBound
  rw [if_neg (by omega : ¬ ((0 : Int) < 0)), if_neg (by omega : ¬ (e < 0))]
  have h0 : min (0 : Int).toNat (c0 :: r).length = 0 := by simp
  rw [h0, List.drop_zero]
  cases hmin : min e.toNat (c0 :: r).length with
  | zero =>
    rw [List.length_cons] at hmin
    have : 1 ≤ e.toNat := by omega
    omega
  | succ k =>
    rw [List.take_succ_cons]
    exact List.mem_cons_self _ _

/-! ### The claims -/

/-- C1: the spec says `chunk` always terminates for every valid
configuration (`chunk_size > 0`, `0 ≤ overlap < chunk_size`), in on the
order of `ceil(len/(chunk_size-overlap))` iterations. The code does not:
with the valid configuration `chunk_size = 10`, `overlap = 9` on the text
`"aaaaaaaa.aaa"` every iteration snaps `end` to 9 (the character after the
`.` at index 8) and resets `start` to `9 - 9 = 0`, which is `< end`, so the
`start >= end` guard never fires and the loop runs forever: no fuel makes
the loop return. -/
theorem c1_chunk_nonterminating :
    ∀ fuel : Nat, chunkText ("aaaaaaaa.aaa".toList) 10 9 fuel = none := by
  have hstep : chunkStep ("aaaaaaaa.aaa".toList) 10 9 0 =
      some (9, 0, some ("aaaaaaaa.".toList)) := by decide
  have hrun : ∀ (n : Nat) (acc : List Line),
      chunkRun ("aaaaaaaa.aaa".toList) 10 9 n 0 acc = none := by
    intro n
    induction n with
    | zero => intro acc; rfl
    | succ n ih =>
      intro acc
      rw [chunkRun_succ, if_pos (by decide), hstep]
      exact ih _
  intro fuel
  unfold chunkText
  rw [if_neg (by decide)]
  exact hrun fuel []

/-- C2: the spec says invalid configurations (`chunk_size ≤ 0`,
`overlap < 0`, `overlap ≥ chunk_size`) must fail fast with an explicit
invalid-argument error for every input text. The code performs no
validation at all: with `chunk_size = 0` on `"abc"` the loop makes no
progress (`end = start`, the guard pins `start` at 0) and never returns —
no error value is ever produced — and with an invalid configuration and
empty text it returns `[]` successfully. -/
theorem c2_no_validation :
    (∀ fuel : Nat, chunkText ("abc".toList) 0 0 fuel = none) ∧
    (∀ fuel : Nat, chunkText ([] : Line) 0 (-1) fuel = some []) := by
  constructor
  · have hstep : chunkStep ("abc".toList) 0 0 0 = some (0, 0, none) := by decide
    have hrun : ∀ (n : Nat) (acc : List Line),
        chunkRun ("abc".toList) 0 0 n 0 acc = none := by
      intro n
      induction n with
      | zero => intro acc; rfl
      | succ n ih =>
        intro acc
        rw [chunkRun_succ, if_pos (by decide), hstep]
        exact ih _
    intro fuel
    unfold chunkText
    rw [if_neg (by decide)]
    exact hrun fuel []
  · intro fuel
    rfl

/-- C3 counterexample: on the caption stream `"A\nA B\nB C\nC D"` the
surviving filtered lines are exactly `["A", "A B", "B C", "C D"]`, yet the
normalizer returns `"A B B C C D"`, not the claimed `"A B C D"`: the
prefix-checking dedup merges `"A"` into `"A B"` but `"B C"` does not start
with `"A B"` (nor conversely), so it is appended, and likewise `"C D"`. -/
theorem c3_counterexample :
    (splitLines (tagRemove ("A\nA B\nB C\nC D".toList))).filterMap keepLine =
      ["A".toList, "A B".toList, "B C".toList, "C D".toList] ∧
    cleanVttContent ("A\nA B\nB C\nC D".toList) = "A B B C C D".toList ∧
    cleanVttContent ("A\nA B\nB C\nC D".toList) ≠ "A B C D".toList := by
  refine ⟨by decide, by decide, by decide⟩

/-- C3 amended: on the filtered lines `["A", "A B", "B C", "C D"]` the
rolling-window deduplication keeps `["A B", "B C", "C D"]` (only the
verbatim-prefix extension `"A"` → `"A B"` merges) and the normalizer
returns `"A B B C C D"`. -/
theorem c3_amended :
    dedupFold ["A".toList, "A B".toList, "B C".toList, "C D".toList] =
      ["A B".toList, "B C".toList, "C D".toList] ∧
    cleanVttContent ("A\nA B\nB C\nC D".toList) = "A B B C C D".toList := by
  refine ⟨by decide, by decide⟩

/-- C4 counterexample: HTML entities are decoded only after the
marker/tag filtering, so `"a<> &lt;c&gt; --&gt; b"` (which contains no
literal `-->` and whose only literal angle pair is the unremovable empty
`<>`) normalizes to `"a<> <c> --> b"`, which contains both a timestamp
arrow `-->` and an angle-bracket tag `<c>`. -/
theorem c4_counterexample :
    cleanVttContent ("a<> &lt;c&gt; --&gt; b".toList) = "a<> <c> --> b".toList ∧
    arrowMark <:+: cleanVttContent ("a<> &lt;c&gt; --&gt; b".toList) ∧
    HasTag (cleanVttContent ("a<> &lt;c&gt; --&gt; b".toList)) := by
  have h : cleanVttContent ("a<> &lt;c&gt; --&gt; b".toList) = "a<> <c> --> b".toList := by
    decide
  refine ⟨h, ?_, ?_⟩
  · rw [h]
    decide
  · rw [h]
    exact ⟨"a<> ".toList, "c".toList, " --> b".toList, by decide, by decide⟩

/-- C4 amended: for every input containing no HTML-entity ampersand `&`
and no literal `<`, the normalizer output contains no `-->` substring, no
`<` at all, and hence no angle-bracket tag. (The `&` restriction is forced
by the counterexample: decoding happens after filtering; the `<`
restriction is forced because a literal `<>` survives tag removal and the
reflow can split it across a line break, recreating a `<...>` span.) -/
theorem c4_amended (s : Line) (hamp : '&' ∉ s) (hlt : '<' ∉ s) :
    ¬ arrowMark <:+: cleanVttContent s ∧ '<' ∉ cleanVttContent s ∧
    ¬ HasTag (cleanVttContent s) := by
  rcases cleanVtt_clean hamp hlt with ⟨h1, h2⟩
  exact ⟨h1, h2, fun ht => h2 (hasTag_mem ht)⟩

/-- C4 witness: the amended theorem applied to a concrete input. -/
theorem c4_amended_witness :
    ¬ arrowMark <:+: cleanVttContent ("WEBVTT\nhello --> world\nhi there.".toList) ∧
    '<' ∉ cleanVttContent ("WEBVTT\nhello --> world\nhi there.".toList) ∧
    ¬ HasTag (cleanVttContent ("WEBVTT\nhello --> world\nhi there.".toList)) :=
  c4_amended ("WEBVTT\nhello --> world\nhi there.".toList) (by decide) (by decide)

/-- C5 counterexample: the normalizer is not idempotent. Entity decoding
happens after filtering, so `normalize("&amp;gt;") = "&gt;"`, and
re-running decodes again: `normalize("&gt;") = ">"` ≠ `"&gt;"`. -/
theorem c5_counterexample :
    cleanVttContent ("&amp;gt;".toList) = "&gt;".toList ∧
    cleanVttContent (cleanVttContent ("&amp;gt;".toList)) = ">".toList ∧
    cleanVttContent (cleanVttContent ("&amp;gt;".toList)) ≠
      cleanVttContent ("&amp;gt;".toList) := by
  refine ⟨by decide, by decide, by decide⟩

/-- C5 amended: re-running the normalizer on its own output is a no-op for
every input whose output is a single wrapped line (length ≤ 100, no line
break), already stripped and space-collapsed (as a single-line output
always is), and free of the things the cleaning steps react to: `&`
(re-decoding), `<` (tag removal), the `WEBVTT`/`Kind:`/`Language:`/`-->`
markers and digit-only content (line filtering). Each exclusion is forced
by a concrete non-idempotence: entities re-decode, a wrapped line can be
digit-only or a prefix of its neighbour, etc. -/
theorem c5_amended (s : Line)
    (h0 : cleanVttContent s ≠ [])
    (hlen : (cleanVttContent s).length ≤ 100)
    (hnl : '\n' ∉ cleanVttContent s) (hcr : '\r' ∉ cleanVttContent s)
    (hamp : '&' ∉ cleanVttContent s) (hlt : '<' ∉ cleanVttContent s)
    (hm1 : containsSub webvttMark (cleanVttContent s) = false)
    (hm2 : containsSub kindMark (cleanVttContent s) = false)
    (hm3 : containsSub languageMark (cleanVttContent s) = false)
    (hm4 : containsSub arrowMark (cleanVttContent s) = false)
    (hdig : pyIsDigit (cleanVttContent s) = false)
    (hstrip : pyStrip (cleanVttContent s) = cleanVttContent s)
    (hcoll : collapse (cleanVttContent s) = cleanVttContent s) :
    cleanVttContent (cleanVttContent s) = cleanVttContent s :=
  cleanVtt_fixed h0 hlen hnl hcr hamp hlt hm1 hm2 hm3 hm4 hdig hstrip hcoll

/-- C5 witness: the amended idempotence at a concrete input. -/
theorem c5_amended_witness :
    cleanVttContent (cleanVttContent ("hello there.".toList)) =
      cleanVttContent ("hello there.".toList) :=
  c5_amended ("hello there.".toList) (by decide) (by decide) (by decide) (by decide)
    (by decide) (by decide) (by decide) (by decide) (by decide) (by decide)
    (by decide) (by decide) (by decide)

/-- C6: throughout the rolling-window deduplication fold, after processing
any number `k` of lines the accumulator — which is exactly the fold over
the first `k` lines — satisfies the invariant: of any two adjacent
accumulated fragments, neither is a (string) prefix of the other. -/
theorem c6_dedup_invariant (lines : List Line) (k : Nat) :
    List.Chain' (fun a b => ¬ a <+: b ∧ ¬ b <+: a) (dedupFold (lines.take k)) :=
  dedupFold_aux_chain (lines.take k) [] List.chain'_nil

/-- C7 counterexample: `chunk("Sentence one. Sentence two. Sentence
three.", 15, 3)` produces 4 chunks, but the second chunk is
`"ne. Sentence tw"`: the window `[10, 25)` has no sentence terminal within
the 4-character lookback, so the cut falls between `'w'` (index 24) and
`'o'` (index 25), in the middle of the word `"two"` — not at or near a
`.` boundary. -/
theorem c7_counterexample :
    chunkText ("Sentence one. Sentence two. Sentence three.".toList) 15 3 10 =
      some ["Sentence one.".toList, "ne. Sentence tw".toList,
        "two. Sentence".toList, "ce three.".toList] ∧
    ("Sentence one. Sentence two. Sentence three.".toList)[24]? = some 'w' ∧
    ("Sentence one. Sentence two. Sentence three.".toList)[25]? = some 'o' ∧
    ("ne. Sentence tw".toList).getLast? = some 'w' := by
  refine ⟨by decide, by decide, by decide, by decide⟩

/-- C7 amended: the call produces at least 2 chunks (in fact 4) and the
first cut does land just after the first `.`, but later cuts may fall in
the middle of a word whenever the `int(0.3 * 15) = 4` character lookback
window contains no sentence terminal. -/
theorem c7_amended :
    chunkText ("Sentence one. Sentence two. Sentence three.".toList) 15 3 10 =
      some ["Sentence one.".toList, "ne. Sentence tw".toList,
        "two. Sentence".toList, "ce three.".toList] ∧
    2 ≤ ["Sentence one.".toList, "ne. Sentence tw".toList,
        "two. Sentence".toList, "ce three.".toList].length ∧
    ["Sentence one.".toList, "ne. Sentence tw".toList,
        "two. Sentence".toList, "ce three.".toList].head? =
      some ("Sentence one.".toList) := by
  refine ⟨by decide, by decide, by decide⟩

/-- C8 counterexample: the whitespace-only text `" "` is a nonempty input
and `(1000, 100)` a valid configuration, yet `chunk` terminates with the
empty sequence: the single window's slice strips to empty and is
dropped. -/
theorem c8_counterexample :
    " ".toList ≠ [] ∧ (0 : Int) < 1000 ∧ (0 : Int) ≤ 100 ∧ (100 : Int) < 1000 ∧
    chunkText (" ".toList) 1000 100 3 = some [] := by
  refine ⟨by decide, by decide, by decide, by decide, by decide⟩

/-- C8 amended: for a valid configuration and an input whose first
character is not whitespace, any terminating run of the loop returns a
non-empty chunk sequence; moreover every character position of the input
lies inside some visited `[start, end)` window (the windows jointly cover
the text, consecutive windows overlapping by up to `overlap`), and the
instrumented run agrees with `chunk_text` itself. -/
theorem c8_amended (c0 : Char) (r : Line) (csz ov : Int) (fuel : Nat)
    (ws : List (Int × Int)) (out : List Line)
    (hcsz : 0 < csz) (hov1 : 0 ≤ ov) (hov2 : ov < csz)
    (hc0 : pyIsSpace c0 = false)
    (hrun : chunkRunW (c0 :: r) csz ov fuel 0 [] [] = some (ws, out)) :
    out ≠ [] ∧
    (∀ i : Int, 0 ≤ i → i < ((c0 :: r).length : Int) →
      ∃ w ∈ ws, w.1 ≤ i ∧ i < w.2) ∧
    chunkText (c0 :: r) csz ov fuel = some out := by
  refine ⟨?_, chunkRunW_cover hcsz fuel 0 [] [] ws out hrun, ?_⟩
  · cases fuel with
    | zero =>
      replace hrun : (none : Option (List (Int × Int) × List Line)) = some (ws, out) := hrun
      simp at hrun
    | succ n =>
      rw [chunkRunW_succ] at hrun
      have hlen : (0 : Int) < ((c0 :: r).length : Int) := by
        rw [List.length_cons]
        omega
      rw [if_pos hlen] at hrun
      cases hstep : chunkStep (c0 :: r) csz ov 0 with
      | none =>
        rw [hstep] at hrun
        replace hrun : (none : Option (List (Int × Int) × List Line)) = some (ws, out) := hrun
        simp at hrun
      | some res =>
        rw [hstep] at hrun
        rcases chunkStep_inv hstep hcsz with ⟨e, rfl, he, -⟩
        have hne : pyStrip (pySlice (c0 :: r) 0 e) ≠ [] :=
          first_chunk_ne hc0 (by omega)
        replace hrun : chunkRunW (c0 :: r) csz ov n (if e - ov ≥ e then e else e - ov)
          ([] ++ [((0 : Int), e)])
          ([] ++ (if (pyStrip (pySlice (c0 :: r) 0 e)).isEmpty then none
            else some (pyStrip (pySlice (c0 :: r) 0 e))).toList) = some (ws, out) := hrun
        rw [if_neg (show ¬ (pyStrip (pySlice (c0 :: r) 0 e)).isEmpty = true by
          simpa [List.isEmpty_iff] using hne)] at hrun
        have hmem := (chunkRunW_mono n _ _ _ ws out hrun).2
          (pyStrip (pySlice (c0 :: r) 0 e)) (by simp)
        intro hout
        rw [hout] at hmem
        exact absurd hmem (List.not_mem_nil _)
  · unfold chunkText
    rw [if_neg (by simp)]
    exact chunkRunW_fst fuel 0 [] [] ws out hrun

/-- C8 witness: the amended theorem at a concrete run. -/
theorem c8_amended_witness :
    (["ab.".toList, ".cd".toList, "d".toList] : List Line) ≠ [] ∧
    (∀ i : Int, 0 ≤ i → i < ((('a' : Char) :: "b.cd".toList).length : Int) →
      ∃ w ∈ [((0 : Int), (3 : Int)), (2, 5), (4, 7)], w.1 ≤ i ∧ i < w.2) ∧
    chunkText (('a' : Char) :: "b.cd".toList) 3 1 10 =
      some ["ab.".toList, ".cd".toList, "d".toList] :=
  c8_amended 'a' ("b.cd".toList) 3 1 10 [(0, 3), (2, 5), (4, 7)]
    ["ab.".toList, ".cd".toList, "d".toList] (by decide) (by decide) (by decide)
    (by decide) (by decide)

/-- C9: degenerate input is not an error: the normalizer returns the empty
string on the empty string and on any whitespace-only string, and the
chunker returns the empty sequence on the empty string for the reference
configuration `(1000, 100)`, all without any error. -/
theorem c9_degenerate :
    cleanVttContent [] = [] ∧
    (∀ s : Line, (∀ c ∈ s, pyIsSpace c) → cleanVttContent s = []) ∧
    (∀ fuel : Nat, chunkText ([] : Line) 1000 100 fuel = some []) :=
  ⟨cleanVtt_nil, fun _ h => cleanVtt_ws h, fun _ => rfl⟩

/-- C9 witness: the whitespace-only clause at a concrete input. -/
theorem c9_witness : cleanVttContent ("  \t\n ".toList) = [] :=
  c9_degenerate.2.1 ("  \t\n ".toList) (by decide)

/-- C10: for a valid configuration, every string in a terminating
`chunk_text` result is nonempty, is a contiguous substring (infix) of the
input, carries no surrounding whitespace (it is its own strip), and has
length at most `chunk_size + 1` — the sentence-boundary snap can place the
cut one character past `start + chunk_size`. -/
theorem c10_chunk_shape (t : Line) (csz ov : Int) (fuel : Nat) (out : List Line)
    (hcsz : 0 < csz) (hov1 : 0 ≤ ov) (hov2 : ov < csz)
    (hrun : chunkText t csz ov fuel = some out) :
    ∀ x ∈ out, x ≠ [] ∧ (x.length : Int) ≤ csz + 1 ∧ x <:+: t ∧ pyStrip x = x := by
  unfold chunkText at hrun
  by_cases hE : t.isEmpty
  · rw [if_pos hE] at hrun
    injection hrun with h'
    subst h'
    intro x hx
    simp at hx
  · rw [if_neg hE] at hrun
    exact chunkRun_inv hcsz fuel 0 [] out hrun (by simp)

/-- C10 witness: the chunk-shape theorem at a concrete run. -/
theorem c10_witness :
    "ab".toList ≠ [] ∧ (("ab".toList).length : Int) ≤ 5 + 1 ∧
    "ab".toList <:+: "ab".toList ∧ pyStrip ("ab".toList) = "ab".toList :=
  c10_chunk_shape ("ab".toList) 5 1 3 ["ab".toList] (by decide) (by decide)
    (by decide) (by decide) ("ab".toList) (by decide)

end YtKnow
